import Mathlib

/-!
Verification of the scrappy Python wrapper (src/python/scrappy/__init__.py)
against its natural-language specification.

The repository is a thin Python layer over the C library `libscrappy`,
whose sources are not part of this repository snapshot.  Wherever a claim
depends on a C routine (`lib.decode_crf`, `lib.trim_raw_by_mad`,
`lib.are_bounds_sane`, `lib.encode_bases_to_integers`) the routine is
modelled from the specification text; every such definition carries a
doc comment starting with "Modelled from the spec:".  All other
definitions are direct shallow embeddings of the Python source.
Python floats occurring in the band derivation are modelled by exact
rational arithmetic; machine-integer casts are modelled on ℤ/ℕ.
-/

/-! ## StateSpaceModel: `_gsp` / `guess_state_properties` (source lines 25-44) -/

/-- The (alphabetSize, kmerLength) pairs enumerated by `_gsp`:
`itertools.product(range(4, 8), range(1, 10))`, outer loop over the
alphabet size, inner loop over the kmer length. -/
def gspPairs : List (Nat × Nat) :=
  (([4, 5, 6, 7] : List Nat).map
    (fun a => ([1, 2, 3, 4, 5, 6, 7, 8, 9] : List Nat).map (fun k => (a, k)))).flatten

/-- The lookup table `state_lookup = {a**k: (a, k) for a, k in pairs}` of `_gsp`.
Its keys are pairwise distinct (proved below), so association-list lookup
agrees with the Python dict. -/
def state_lookup : List (Nat × (Nat × Nat)) :=
  gspPairs.map (fun p => (p.1 ^ p.2, p))

/-- `guess_state_properties(nstate)`: looks up `nstate - 1` (one state is the
stay state) in the table.  A missing key raises `KeyError` in Python — the
spec's `UnrecognizedStateCount` — modelled as `none`. -/
def guess_state_properties (nstate : Nat) : Option (Nat × Nat) :=
  state_lookup.lookup (nstate - 1)

theorem lookup_eq_none_of_not_mem_keys {γ : Type} (l : List (Nat × γ)) (key : Nat)
    (h : ∀ p ∈ l, p.1 ≠ key) : l.lookup key = none := by
  induction l with
  | nil => rfl
  | cons p es ih =>
    have hp : p.1 ≠ key := h p (List.mem_cons_self p es)
    have hk : (key == p.1) = false := by
      simp [beq_iff_eq]
      exact fun he => hp he.symm
    cases p with
    | mk k v =>
      simp only [List.lookup, hk]
      exact ih (fun q hq => h q (List.mem_cons_of_mem _ hq))

theorem gspPairs_bounds : ∀ p ∈ gspPairs, 4 ≤ p.1 ∧ p.1 ≤ 7 ∧ 1 ≤ p.2 ∧ p.2 ≤ 9 := by
  decide

/-- C2: for every alphabetSize a ∈ [4,7] and kmerLength k ∈ [1,9],
`guess_state_properties (a^k + 1) = (a, k)`; in particular 1025 ↦ (4,5) and
16385 ↦ (4,7); the 36 table keys are pairwise distinct (the dict comprehension
is injective, matching the `assert` in `_gsp`); and every state count whose
predecessor is not `a^k` for any in-range pair fails the lookup
(Python `KeyError`, the spec's `UnrecognizedStateCount`). -/
theorem guess_state_properties_complete :
    (∀ a k, 4 ≤ a → a ≤ 7 → 1 ≤ k → k ≤ 9 →
      guess_state_properties (a ^ k + 1) = some (a, k)) ∧
    guess_state_properties 1025 = some (4, 5) ∧
    guess_state_properties 16385 = some (4, 7) ∧
    (state_lookup.map Prod.fst).Nodup ∧
    (∀ n : Nat, (∀ a k, 4 ≤ a → a ≤ 7 → 1 ≤ k → k ≤ 9 → n - 1 ≠ a ^ k) →
      guess_state_properties n = none) := by
  refine ⟨?_, by decide, by decide, by decide, ?_⟩
  · intro a k ha1 ha2 hk1 hk2
    interval_cases a <;> interval_cases k <;> decide
  · intro n hn
    apply lookup_eq_none_of_not_mem_keys
    intro p hp
    have hex : ∃ q ∈ gspPairs, (q.1 ^ q.2, q) = p := by
      simpa [state_lookup] using hp
    obtain ⟨q, hq, rfl⟩ := hex
    obtain ⟨h1, h2, h3, h4⟩ := gspPairs_bounds q hq
    exact fun he => hn q.1 q.2 h1 h2 h3 h4 he.symm

theorem guess_state_properties_complete_witness :
    guess_state_properties (4 ^ 5 + 1) = some (4, 5) ∧ guess_state_properties 3 = none := by
  constructor
  · exact guess_state_properties_complete.1 4 5 (by decide) (by decide) (by decide) (by decide)
  · refine guess_state_properties_complete.2.2.2.2 3 ?_
    intro a k ha1 _ hk1 _ hne
    have hk0 : k ≠ 0 := by omega
    have := Nat.le_self_pow hk0 a
    omega

/-! ## CRFDecoder: `crfpath_to_basecall` (source lines 511-524) -/

/-- `base_lookup = ['A','C','G','T']` of `crfpath_to_basecall`. -/
def base_lookup : List Char := ['A', 'C', 'G', 'T']

/-- `crfpath_to_basecall(path)`: the Python loop appends `base_lookup[b]` for
every path entry `b < NBASE` (NBASE = 4) and joins the collected characters;
blank-state entries (state 4) are skipped. -/
def crfpath_to_basecall (path : List Nat) : String :=
  String.mk (path.foldl
    (fun basecall b => if b < 4 then basecall ++ [base_lookup.getD b 'A'] else basecall) [])

theorem crfpath_foldl_eq (path : List Nat) (acc : List Char) :
    path.foldl
        (fun basecall b => if b < 4 then basecall ++ [base_lookup.getD b 'A'] else basecall) acc
      = acc ++ (path.filter (fun b => decide (b < 4))).map (fun b => base_lookup.getD b 'A') := by
  induction path generalizing acc with
  | nil => simp
  | cons b rest ih =>
    rw [List.foldl_cons, ih, List.filter_cons]
    by_cases hb : b < 4 <;> simp [hb]

/-- C5: `crfpath_to_basecall` keeps exactly the entries with state index < 4,
in order, mapped through the A/C/G/T lookup; an all-blank path gives the empty
string; an alternating base/blank path of length 2N gives exactly the N bases
in their original order (hence N characters). -/
theorem crfpath_to_basecall_filters_blanks (path : List Nat) (n : Nat) (bs : List (Fin 4)) :
    crfpath_to_basecall path
        = String.mk ((path.filter (fun b => decide (b < 4))).map (fun b => base_lookup.getD b 'A'))
      ∧ crfpath_to_basecall (List.replicate n 4) = ""
      ∧ crfpath_to_basecall ((bs.map (fun b => [b.val, 4])).flatten)
          = String.mk (bs.map (fun b => base_lookup.getD b.val 'A'))
      ∧ (crfpath_to_basecall ((bs.map (fun b => [b.val, 4])).flatten)).length = bs.length := by
  have hchar : ∀ path : List Nat, crfpath_to_basecall path
      = String.mk ((path.filter (fun b => decide (b < 4))).map (fun b => base_lookup.getD b 'A')) := by
    intro p
    unfold crfpath_to_basecall
    rw [crfpath_foldl_eq p []]
    rfl
  have halt : ∀ bs : List (Fin 4),
      ((bs.map (fun b => [b.val, 4])).flatten.filter (fun b => decide (b < 4))).map
          (fun b => base_lookup.getD b 'A')
        = bs.map (fun b => base_lookup.getD b.val 'A') := by
    intro l
    induction l with
    | nil => rfl
    | cons b rest ih =>
      have hb : b.val < 4 := b.isLt
      rw [List.map_cons, List.flatten_cons, List.filter_append, List.map_append, ih]
      have hfil : ([b.val, 4] : List Nat).filter (fun x => decide (x < 4)) = [b.val] := by
        simp [hb]
      rw [hfil]
      simp
  refine ⟨hchar path, ?_, ?_, ?_⟩
  · rw [hchar]
    have hrep : (List.replicate n 4).filter (fun b : Nat => decide (b < 4)) = [] := by
      induction n with
      | zero => rfl
      | succ k ih =>
        rw [List.replicate_succ, List.filter_cons]
        simp only [show (decide ((4 : Nat) < 4)) = false from rfl]
        exact ih
    rw [hrep]
    rfl
  · rw [hchar, halt]
  · rw [hchar, halt]
    exact bs.length_map _

/-! ## SignalConditioner: `_trim_raw` (source lines 114-133)

`lib.trim_raw_by_mad` (the MAD-based boundary detection) is C code absent
from this repository snapshot; only the Python guard/collapse post-processing
of the detected boundaries is in src.  The detection is therefore modelled as
an arbitrary function from the current window to the detected window, and the
in-src post-processing is embedded exactly. -/

/-- The Python post-processing of `_trim_raw` applied to the boundaries
`d = (rt.start, rt.end)` detected by `lib.trim_raw_by_mad` on a table of `n`
samples, with start/end guards `gs`/`ge`:

  rt.start = rt.start + start if (rt.n - rt.start) > start else rt.n
  rt.end   = rt.end - end if (rt.end > end) else 0
  if rt.start >= rt.end: rt.start, rt.end = 0, 0

The struct fields are C `size_t`; the `else 0` branch keeps `rt.end`
non-negative, matching truncated subtraction. -/
def trimPost (n : Nat) (d : Nat × Nat) (gs ge : Nat) : Nat × Nat :=
  let s := if n - d.1 > gs then d.1 + gs else n
  let e := if d.2 > ge then d.2 - ge else 0
  if s ≥ e then (0, 0) else (s, e)

/-- Modelled from the spec: `lib.trim_raw_by_mad` is not in src; `_trim_raw`
is its detection composed with the in-src post-processing (`trimPost`).  The
detection parameter `D` maps the sample count and current window to the
detected stable-region window. -/
def trimRawModel (D : Nat → Nat × Nat → Nat × Nat) (n : Nat) (w : Nat × Nat)
    (gs ge : Nat) : Nat × Nat :=
  trimPost n (D n w) gs ge

/-- Modelled from the spec: the detection on a uniformly stable signal, which
leaves the current window unchanged (the whole window is the stable region). -/
def detectStable : Nat → Nat × Nat → Nat × Nat := fun _ w => w

/-- Modelled from the spec: a detection that returns the current window
clipped to the table, satisfying the RawSignal window invariant end ≤ length. -/
def detectClamp : Nat → Nat × Nat → Nat × Nat := fun n w => (w.1, min w.2 n)

/-- C3: from detected boundaries `(ds, de)` with `ds ≤ de ≤ n`, `_trim_raw`
shrinks the window inward by the guard amounts — new start `ds + gs`, new end
`de - ge` clipped at zero — and collapses to exactly `(0, 0)` whenever the
resulting start ≥ end (including the case where the guarded start would pass
the end of the table). -/
theorem trim_shrinks_and_collapses (n ds de gs ge : Nat) (h1 : ds ≤ de) (h2 : de ≤ n) :
    trimPost n (ds, de) gs ge
      = if de - ge ≤ ds + gs then (0, 0) else (ds + gs, de - ge) := by
  simp only [trimPost]
  split_ifs <;> simp only [Prod.mk.injEq] <;> omega

theorem trim_shrinks_and_collapses_witness :
    trimPost 100 (10, 90) 5 5 = if 90 - 5 ≤ 10 + 5 then (0, 0) else (10 + 5, 90 - 5) :=
  trim_shrinks_and_collapses 100 10 90 5 5 (by decide) (by decide)

/-- C7 counterexample: trimming is not idempotent.  With the stable-signal
detection, a 500-sample window trimmed twice with the default guards
(start = 200, end = 10) moves from (200, 490) to (400, 480): the guards are
re-applied by the second trim. -/
theorem trim_not_idempotent_counterexample :
    trimRawModel detectStable 500 (trimRawModel detectStable 500 (0, 500) 200 10) 200 10
      ≠ trimRawModel detectStable 500 (0, 500) 200 10 := by
  decide

/-- C7 amended: for every boundary detection that only moves the start inward
and respects the table length, and every positive start guard, a second trim
never leaves the window unchanged unless the first trim already collapsed it
to (0, 0): either the second trim collapses the window, or it moves the start
inward by at least the start guard again. -/
theorem trimPost_cases (n : Nat) (d : Nat × Nat) (gs ge : Nat) (hd : d.2 ≤ n) :
    trimPost n d gs ge = (0, 0) ∨
      (trimPost n d gs ge = (d.1 + gs, d.2 - ge) ∧ d.1 + gs < d.2 - ge) := by
  simp only [trimPost]
  split_ifs <;>
    first
      | exact Or.inl rfl
      | exact Or.inr ⟨rfl, by omega⟩
      | (exfalso; omega)

theorem trim_second_application_moves_window (D : Nat → Nat × Nat → Nat × Nat)
    (hD1 : ∀ n w, w.1 ≤ (D n w).1) (hD2 : ∀ n w, (D n w).2 ≤ n)
    (n : Nat) (w : Nat × Nat) (gs ge : Nat) (hgs : 0 < gs)
    (hne : trimRawModel D n w gs ge ≠ (0, 0)) :
    trimRawModel D n (trimRawModel D n w gs ge) gs ge ≠ trimRawModel D n w gs ge := by
  have hfirst : trimRawModel D n w gs ge = trimPost n (D n w) gs ge := rfl
  rcases trimPost_cases n (D n w) gs ge (hD2 n w) with h1 | ⟨h1, hlt1⟩
  · exact absurd (hfirst.trans h1) hne
  · set w1 := trimRawModel D n w gs ge with hw1def
    have hw1v : w1 = ((D n w).1 + gs, (D n w).2 - ge) := hw1def.trans (hfirst.trans h1)
    have hsecond : trimRawModel D n w1 gs ge = trimPost n (D n w1) gs ge := rfl
    rcases trimPost_cases n (D n w1) gs ge (hD2 n w1) with h2 | ⟨h2, hlt2⟩
    · intro heq
      rw [hsecond, h2, hw1v] at heq
      have := congrArg Prod.snd heq
      simp only at this
      omega
    · intro heq
      rw [hsecond, h2] at heq
      have hb2 := hD1 n w1
      have hfst := congrArg Prod.fst heq
      simp only at hfst
      omega

theorem trim_second_application_moves_window_witness :
    trimRawModel detectClamp 1000 (trimRawModel detectClamp 1000 (0, 1000) 200 10) 200 10
      ≠ trimRawModel detectClamp 1000 (0, 1000) 200 10 :=
  trim_second_application_moves_window detectClamp
    (fun _ w => le_refl w.1) (fun _ w => min_le_right w.2 _)
    1000 (0, 1000) 200 10 (by decide) (by decide)

/-! ## CRFDecoder: `decode_post_python` (source lines 468-509) against the
primary decoder `_decode_post_crf` / `lib.decode_crf` (source lines 349-365)

`basecall_raw_python` decodes the same posterior twice: once with
`decode_post(post, 'rnnrf_r94')`, which hands the raw scrappie matrix to the
C routine `lib.decode_crf`, and once with `decode_post_python`, which receives
`post.data(as_numpy=True)` — the matrix after `_scrappie_to_numpy`'s sloika
reordering — and asserts the basecalls agree.  `lib.decode_crf` is C code
absent from this repository snapshot and is modelled from spec §4.4.  A CRF
posterior block is a row of 25 finite log-scores, modelled as `Fin 25 → ℚ`;
a matrix of `nblk` blocks is `Nat → Fin 25 → ℚ` (entries beyond `nblk` are
never read). -/

/-- Column permutation applied by `_scrappie_to_numpy` with `sloika=True`
(source lines 267-271): the last state column is moved to the front
(`np.hstack((p1, p2))` with `p1` the final column). -/
def sloikaCol (j : Fin 25) : Fin 25 :=
  if j.val = 0 then ⟨24, by omega⟩ else ⟨j.val - 1, by have := j.isLt; omega⟩

/-- The matrix returned by `post.data(as_numpy=True)`: the raw matrix with
each row passed through the sloika reordering. -/
def sloikaReorder (post : Nat → Fin 25 → ℚ) : Nat → Fin 25 → ℚ :=
  fun blk j => post blk (sloikaCol j)

/-- Column reordering `idx = list(range(1, 25)) + [0]` applied by
`decode_post_python` (source line 480), undoing the sloika reordering. -/
def pyIdx (j : Fin 25) : Fin 25 :=
  if _h : j.val < 24 then ⟨j.val + 1, by omega⟩ else ⟨0, by omega⟩

theorem sloikaCol_pyIdx : ∀ j : Fin 25, sloikaCol (pyIdx j) = j := by decide

/-- `post_sq` of `decode_post_python`: the reordered row reshaped to a 5×5
block; entry `[st1][st2]` (to-state `st1`, from-state `st2`) is entry
`5*st1 + st2` of the reordered row. -/
def post_sq (post : Nat → Fin 25 → ℚ) (blk : Nat) (st1 st2 : Fin 5) : ℚ :=
  post blk (pyIdx ⟨5 * st1.val + st2.val, by have := st1.isLt; have := st2.isLt; omega⟩)

/-- Modelled from the spec: the 5×5 transition-score block seen by the primary
decoder `lib.decode_crf` on the raw matrix — `score[to][from]` at flat row
offset `5*to + from`, the fixed state-layout convention that spec §4.4/§9(b)
requires to match exactly between implementations. -/
def crfScores (traw : Nat → Fin 25 → ℚ) (blk : Nat) (st1 st2 : Fin 5) : ℚ :=
  traw blk ⟨5 * st1.val + st2.val, by have := st1.isLt; have := st2.isLt; omega⟩

/-- Inner from-state loop of `decode_post_python` (source lines 492-501):
start from from-state 0, replace the running best only on a strictly greater
score, so the lowest from-state index wins ties.  Returns
(best score, recorded traceback state). -/
def bestFrom (f : Fin 5 → ℚ) : ℚ × Fin 5 :=
  List.foldl (fun acc s2 => if f s2 > acc.1 then (f s2, s2) else acc) (f 0, 0)
    ([1, 2, 3, 4] : List (Fin 5))

/-- Modelled from the spec: "curr[to] = max over from of
(score[to][from] + prev[from])" — the maximum of a score over the five CRF
states (§4.4). -/
def maxOver5 (f : Fin 5 → ℚ) : ℚ := f 0 ⊔ f 1 ⊔ f 2 ⊔ f 3 ⊔ f 4

/-- First state index attaining the maximum: the fixed deterministic
tie-break (lowest index) adopted for the modelled decoder's backpointers, as
spec §9(a) permits; it is also numpy argmax's first-occurrence rule, used by
`decode_post_python` for the final state. -/
def argmaxFirst (f : Fin 5 → ℚ) : Fin 5 :=
  if f 0 = maxOver5 f then 0
  else if f 1 = maxOver5 f then 1
  else if f 2 = maxOver5 f then 2
  else if f 3 = maxOver5 f then 3
  else 4

theorem maxOver5_cases (f : Fin 5 → ℚ) :
    maxOver5 f = f 0 ∨ maxOver5 f = f 1 ∨ maxOver5 f = f 2 ∨ maxOver5 f = f 3 ∨
      maxOver5 f = f 4 := by
  simp only [maxOver5, max_def]
  split_ifs <;> tauto

theorem le_maxOver5 (f : Fin 5 → ℚ) (i : Fin 5) : f i ≤ maxOver5 f := by
  simp only [maxOver5]
  rcases i with ⟨v, hv⟩
  interval_cases v
  · exact le_sup_of_le_left (le_sup_of_le_left (le_sup_of_le_left le_sup_left))
  · exact le_sup_of_le_left (le_sup_of_le_left (le_sup_of_le_left le_sup_right))
  · exact le_sup_of_le_left (le_sup_of_le_left le_sup_right)
  · exact le_sup_of_le_left le_sup_right
  · exact le_sup_right

theorem maxOver5_le (f : Fin 5 → ℚ) (x : ℚ) (g0 : f 0 ≤ x) (g1 : f 1 ≤ x) (g2 : f 2 ≤ x)
    (g3 : f 3 ≤ x) (g4 : f 4 ≤ x) : maxOver5 f ≤ x := by
  simp only [maxOver5, sup_le_iff]
  exact ⟨⟨⟨⟨g0, g1⟩, g2⟩, g3⟩, g4⟩
theorem argmaxFirst_eq (f : Fin 5 → ℚ) (i : Fin 5) (hm : maxOver5 f = f i)
    (hlt : ∀ j : Fin 5, j < i → f j < f i) : argmaxFirst f = i := by
  have key : ∀ k : Fin 5, f k = maxOver5 f →
      (∀ m : Fin 5, m < k → f m ≠ maxOver5 f) → k = i := by
    intro k hk hprev
    rcases lt_trichotomy k i with h | h | h
    · have hc := hlt k h
      rw [hk, hm] at hc
      exact absurd hc (lt_irrefl _)
    · exact h
    · exact absurd hm.symm (hprev i h)
  unfold argmaxFirst
  split_ifs with c0 c1 c2 c3
  · exact key 0 c0 (fun m hm0 => absurd hm0 (by simp [Fin.lt_def]))
  · refine key 1 c1 (fun m hm1 hmc => ?_)
    have hv : m.val < 1 := by
      have hq := Fin.lt_def.mp hm1
      rw [show ((1 : Fin 5)).val = 1 from rfl] at hq
      exact hq
    have h0 : m = 0 := Fin.ext (by rw [show ((0 : Fin 5)).val = 0 from rfl]; omega)
    rw [h0] at hmc
    exact c0 hmc
  · refine key 2 c2 (fun m hm2 hmc => ?_)
    have hv : m.val < 2 := by
      have hq := Fin.lt_def.mp hm2
      rw [show ((2 : Fin 5)).val = 2 from rfl] at hq
      exact hq
    rcases Nat.lt_or_ge m.val 1 with h | h
    · have h0 : m = 0 := Fin.ext (by rw [show ((0 : Fin 5)).val = 0 from rfl]; omega)
      rw [h0] at hmc; exact c0 hmc
    · have h1 : m = 1 := Fin.ext (by rw [show ((1 : Fin 5)).val = 1 from rfl]; omega)
      rw [h1] at hmc; exact c1 hmc
  · refine key 3 c3 (fun m hm3 hmc => ?_)
    have hv : m.val < 3 := by
      have hq := Fin.lt_def.mp hm3
      rw [show ((3 : Fin 5)).val = 3 from rfl] at hq
      exact hq
    rcases Nat.lt_or_ge m.val 1 with h | h
    · have h0 : m = 0 := Fin.ext (by rw [show ((0 : Fin 5)).val = 0 from rfl]; omega)
      rw [h0] at hmc; exact c0 hmc
    · rcases Nat.lt_or_ge m.val 2 with h' | h'
      · have h1 : m = 1 := Fin.ext (by rw [show ((1 : Fin 5)).val = 1 from rfl]; omega)
        rw [h1] at hmc; exact c1 hmc
      · have h2 : m = 2 := Fin.ext (by rw [show ((2 : Fin 5)).val = 2 from rfl]; omega)
        rw [h2] at hmc; exact c2 hmc
  · have c4 : f 4 = maxOver5 f := by
      rcases maxOver5_cases f with h | h | h | h | h
      · exact absurd h.symm c0
      · exact absurd h.symm c1
      · exact absurd h.symm c2
      · exact absurd h.symm c3
      · exact h.symm
    refine key 4 c4 (fun m hm4 hmc => ?_)
    have hv : m.val < 4 := by
      have hq := Fin.lt_def.mp hm4
      rw [show ((4 : Fin 5)).val = 4 from rfl] at hq
      exact hq
    rcases Nat.lt_or_ge m.val 1 with h | h
    · have h0 : m = 0 := Fin.ext (by rw [show ((0 : Fin 5)).val = 0 from rfl]; omega)
      rw [h0] at hmc; exact c0 hmc
    · rcases Nat.lt_or_ge m.val 2 with h' | h'
      · have h1 : m = 1 := Fin.ext (by rw [show ((1 : Fin 5)).val = 1 from rfl]; omega)
        rw [h1] at hmc; exact c1 hmc
      · rcases Nat.lt_or_ge m.val 3 with h'' | h''
        · have h2 : m = 2 := Fin.ext (by rw [show ((2 : Fin 5)).val = 2 from rfl]; omega)
          rw [h2] at hmc; exact c2 hmc
        · have h3 : m = 3 := Fin.ext (by rw [show ((3 : Fin 5)).val = 3 from rfl]; omega)
          rw [h3] at hmc; exact c3 hmc

theorem f_argmaxFirst (f : Fin 5 → ℚ) : f (argmaxFirst f) = maxOver5 f := by
  unfold argmaxFirst
  split_ifs with c0 c1 c2 c3
  · exact c0
  · exact c1
  · exact c2
  · exact c3
  · rcases maxOver5_cases f with h | h | h | h | h
    · exact absurd h.symm c0
    · exact absurd h.symm c1
    · exact absurd h.symm c2
    · exact absurd h.symm c3
    · exact h.symm

theorem forall_lt_fin5 (P : Fin 5 → Prop) (n : Nat) (i : Fin 5) (hi : i.val = n)
    (p0 : 0 < n → P 0) (p1 : 1 < n → P 1) (p2 : 2 < n → P 2) (p3 : 3 < n → P 3) :
    ∀ j : Fin 5, j < i → P j := by
  intro j hj
  have hv := Fin.lt_def.mp hj
  rw [hi] at hv
  rcases j with ⟨v, hv5⟩
  interval_cases v
  · exact p0 hv
  · exact p1 hv
  · exact p2 hv
  · exact p3 hv
  · exact absurd hv (by
      rw [show ((⟨4, hv5⟩ : Fin 5)).val = 4 from rfl]
      have h5 := i.isLt
      rw [hi] at h5
      omega)

theorem bestFrom_eq (f : Fin 5 → ℚ) : bestFrom f = (maxOver5 f, argmaxFirst f) := by
  unfold bestFrom
  simp only [List.foldl]
  split_ifs with h1 h2 h3 h4
  all_goals dsimp only at *
  all_goals rw [Prod.mk.injEq]
  all_goals first
    | (have hm : maxOver5 f = f 0 :=
         le_antisymm
           (maxOver5_le f (f 0) (by linarith) (by linarith) (by linarith) (by linarith)
             (by linarith))
           (le_maxOver5 f 0)
       have hlt : ∀ j : Fin 5, j < 0 → f j < f 0 :=
         forall_lt_fin5 (fun j => f j < f 0) 0 0 rfl (fun h => absurd h (by omega)) (fun h => absurd h (by omega)) (fun h => absurd h (by omega)) (fun h => absurd h (by omega))
       exact ⟨hm.symm, (argmaxFirst_eq f 0 hm hlt).symm⟩)
    | (have hm : maxOver5 f = f 1 :=
         le_antisymm
           (maxOver5_le f (f 1) (by linarith) (by linarith) (by linarith) (by linarith)
             (by linarith))
           (le_maxOver5 f 1)
       have hlt : ∀ j : Fin 5, j < 1 → f j < f 1 :=
         forall_lt_fin5 (fun j => f j < f 1) 1 1 rfl (fun _ => by linarith) (fun h => absurd h (by omega)) (fun h => absurd h (by omega)) (fun h => absurd h (by omega))
       exact ⟨hm.symm, (argmaxFirst_eq f 1 hm hlt).symm⟩)
    | (have hm : maxOver5 f = f 2 :=
         le_antisymm
           (maxOver5_le f (f 2) (by linarith) (by linarith) (by linarith) (by linarith)
             (by linarith))
           (le_maxOver5 f 2)
       have hlt : ∀ j : Fin 5, j < 2 → f j < f 2 :=
         forall_lt_fin5 (fun j => f j < f 2) 2 2 rfl (fun _ => by linarith) (fun _ => by linarith) (fun h => absurd h (by omega)) (fun h => absurd h (by omega))
       exact ⟨hm.symm, (argmaxFirst_eq f 2 hm hlt).symm⟩)
    | (have hm : maxOver5 f = f 3 :=
         le_antisymm
           (maxOver5_le f (f 3) (by linarith) (by linarith) (by linarith) (by linarith)
             (by linarith))
           (le_maxOver5 f 3)
       have hlt : ∀ j : Fin 5, j < 3 → f j < f 3 :=
         forall_lt_fin5 (fun j => f j < f 3) 3 3 rfl (fun _ => by linarith) (fun _ => by linarith) (fun _ => by linarith) (fun h => absurd h (by omega))
       exact ⟨hm.symm, (argmaxFirst_eq f 3 hm hlt).symm⟩)
    | (have hm : maxOver5 f = f 4 :=
         le_antisymm
           (maxOver5_le f (f 4) (by linarith) (by linarith) (by linarith) (by linarith)
             (by linarith))
           (le_maxOver5 f 4)
       have hlt : ∀ j : Fin 5, j < 4 → f j < f 4 :=
         forall_lt_fin5 (fun j => f j < f 4) 4 4 rfl (fun _ => by linarith) (fun _ => by linarith) (fun _ => by linarith) (fun _ => by linarith)
       exact ⟨hm.symm, (argmaxFirst_eq f 4 hm hlt).symm⟩)

/-- Forward Viterbi values of `decode_post_python` (source lines 489-501):
`pyV sc b` is `curr` after processing blocks `0..b-1`; `curr` starts at zero
(`prev` is zero at block 0). -/
def pyV (sc : Nat → Fin 5 → Fin 5 → ℚ) : Nat → Fin 5 → ℚ
  | 0 => fun _ => 0
  | blk + 1 => fun st1 => (bestFrom (fun st2 => sc blk st1 st2 + pyV sc blk st2)).1

/-- `traceback[blk][st1]` recorded by `decode_post_python`. -/
def pyTB (sc : Nat → Fin 5 → Fin 5 → ℚ) (blk : Nat) (st1 : Fin 5) : Fin 5 :=
  (bestFrom (fun st2 => sc blk st1 st2 + pyV sc blk st2)).2

/-- Modelled from the spec: the primary decoder's forward Viterbi values —
"curr[to] = max over from of (score[to][from] + prev[from])", `prev`
initialised to zero at block 0 (§4.4). -/
def crfV (sc : Nat → Fin 5 → Fin 5 → ℚ) : Nat → Fin 5 → ℚ
  | 0 => fun _ => 0
  | blk + 1 => fun st1 => maxOver5 (fun st2 => sc blk st1 st2 + crfV sc blk st2)

/-- Modelled from the spec: the primary decoder's backpointer per
(block, to-state) (§4.4), with the lowest-index tie-break of §9(a). -/
def crfTB (sc : Nat → Fin 5 → Fin 5 → ℚ) (blk : Nat) (st1 : Fin 5) : Fin 5 :=
  argmaxFirst (fun st2 => sc blk st1 st2 + crfV sc blk st2)

/-- Backtracking through a backpointer table (source lines 504-507): the full
state trajectory `path[0..nblk]` ending at the chosen final state `s`, where
`path[blk-1] = traceback[blk-1][path[blk]]`. -/
def backtrace (tb : Nat → Fin 5 → Fin 5) : Nat → Fin 5 → List (Fin 5)
  | 0, s => [s]
  | blk + 1, s => backtrace tb blk (tb blk s) ++ [s]

/-- The path returned by `decode_post_python`: backtrace from the numpy
argmax of the final `curr`, with the terminal entry dropped (`path[:-1]`,
source line 508). -/
def pyPath (post : Nat → Fin 25 → ℚ) (nblk : Nat) : List (Fin 5) :=
  (backtrace (pyTB (post_sq post)) nblk (argmaxFirst (pyV (post_sq post) nblk))).dropLast

/-- The best final score reached by `decode_post_python`'s forward pass:
the `curr` entry at the chosen final state. -/
def pyScore (post : Nat → Fin 25 → ℚ) (nblk : Nat) : ℚ :=
  pyV (post_sq post) nblk (argmaxFirst (pyV (post_sq post) nblk))

/-- `decode_post_python(post)` (source lines 468-509) on a posterior of
`nblk` blocks: Viterbi decode, backtrace, drop the terminal entry, collapse
blanks with `crfpath_to_basecall`. -/
def decode_post_python (post : Nat → Fin 25 → ℚ) (nblk : Nat) : String :=
  crfpath_to_basecall ((pyPath post nblk).map Fin.val)

/-- Modelled from the spec: `lib.decode_crf` as specified in §4.4 — score is
the maximum of `curr` at the final block; the path is backtraced through the
backpointers from the best final state, of which `_decode_post_crf` consumes
the first `nblk` entries (`crfpath_to_basecall(path, nblk, ...)`). -/
def decode_crf (traw : Nat → Fin 25 → ℚ) (nblk : Nat) : ℚ × List (Fin 5) :=
  (maxOver5 (crfV (crfScores traw) nblk),
   (backtrace (crfTB (crfScores traw)) nblk
     (argmaxFirst (crfV (crfScores traw) nblk))).dropLast)

theorem post_sq_sloika (traw : Nat → Fin 25 → ℚ) :
    post_sq (sloikaReorder traw) = crfScores traw := by
  funext blk st1 st2
  simp only [post_sq, sloikaReorder, crfScores]
  rw [sloikaCol_pyIdx]

theorem pyV_eq_crfV (sc : Nat → Fin 5 → Fin 5 → ℚ) : ∀ b, pyV sc b = crfV sc b := by
  intro b
  induction b with
  | zero => rfl
  | succ b ih =>
    funext st1
    simp only [pyV, crfV, ih, bestFrom_eq]

theorem pyTB_eq_crfTB (sc : Nat → Fin 5 → Fin 5 → ℚ) : pyTB sc = crfTB sc := by
  funext blk st1
  simp only [pyTB, crfTB, bestFrom_eq, pyV_eq_crfV]

/-- C1: for every CRF posterior matrix of finite log-scores, the pure Python
reference decoder `decode_post_python` — which receives the sloika-reordered
matrix from `post.data(as_numpy=True)` and re-reorders it with
`idx = list(range(1,25))+[0]` — computes the same score, the same state path,
and hence the same basecall as the primary decoder `lib.decode_crf`
(modelled from spec §4.4) running on the raw matrix, exactly as
`basecall_raw_python` asserts. -/
theorem crf_python_reference_matches_primary (traw : Nat → Fin 25 → ℚ) (nblk : Nat) :
    pyScore (sloikaReorder traw) nblk = (decode_crf traw nblk).1 ∧
    pyPath (sloikaReorder traw) nblk = (decode_crf traw nblk).2 ∧
    decode_post_python (sloikaReorder traw) nblk
      = crfpath_to_basecall (((decode_crf traw nblk).2).map Fin.val) := by
  have hsc : post_sq (sloikaReorder traw) = crfScores traw := post_sq_sloika traw
  have hV : pyV (post_sq (sloikaReorder traw)) nblk = crfV (crfScores traw) nblk := by
    rw [hsc, pyV_eq_crfV]
  have hTB : pyTB (post_sq (sloikaReorder traw)) = crfTB (crfScores traw) := by
    rw [hsc, pyTB_eq_crfTB]
  have hpath : pyPath (sloikaReorder traw) nblk = (decode_crf traw nblk).2 := by
    simp only [pyPath, decode_crf, hV, hTB]
  refine ⟨?_, hpath, ?_⟩
  · simp only [pyScore, decode_crf, hV]
    exact f_argmaxFirst _
  · simp only [decode_post_python, hpath]
/-! ## ScoreMatrix views: `ScrappyMatrix.__getitem__` / `ScrappyMatrixView`
(source lines 188-224)

The C struct `scrappie_matrix` is modelled by its fields; `data.f` (a float
pointer into a shared buffer) is modelled as an integer offset `dataOff` into
the parent's buffer.  `ownsData` records whether `__del__` calls
`lib.free_scrappie_matrix`: `ScrappyMatrix.__del__` does (source line 161),
`ScrappyMatrixView.__del__` deliberately does not (source lines 223-224). -/

structure ScrappieMatrix where
  nr : Nat
  nrq : Nat
  nc : Int
  stride : Int
  dataOff : Int
  ownsData : Bool
  deriving DecidableEq

/-- A Python `slice` object: `start`, `stop` and `step` are `None` or ints
(negative values are passed through unnormalised by `__getitem__`). -/
structure PySlice where
  start : Option Int
  stop : Option Int
  step : Option Int
  deriving DecidableEq

/-- The exceptions `__getitem__` can raise: `ValueError` for a stride other
than 1, `IndexError` for a reversed or out-of-bounds range. -/
inductive SliceError
  | valueError
  | indexError
  deriving DecidableEq

/-- `ScrappyMatrix.__getitem__(slice)` constructing a `ScrappyMatrixView`:
defaults `start`/`stop` to `0`/`shape[0]` (`shape[0] = nc`), rejects a step
other than `None`/1 with `ValueError`, rejects `start > stop` and indices
beyond `nc` with `IndexError`, and otherwise copies the struct fields, sets
`nc = stop - start` and advances `data.f` by `start * stride`; the view never
frees the parent's buffer. -/
def scrappyGetItem (m : ScrappieMatrix) (s : PySlice) : Except SliceError ScrappieMatrix :=
  let nElems : Int := m.nc
  let start : Int := s.start.getD 0
  let stop : Int := s.stop.getD nElems
  if s.step ≠ none ∧ s.step ≠ some 1 then .error .valueError
  else if start > stop then .error .indexError
  else if start > nElems ∨ stop > nElems then .error .indexError
  else .ok ⟨m.nr, m.nrq, stop - start, m.stride, m.dataOff + start * m.stride, false⟩

/-- C10: slicing a `ScrappyMatrix` yields a view exactly when the step is
`None` or 1, start ≤ stop, and both are ≤ `nc`; a different step raises
`ValueError` and a reversed or out-of-bounds range raises `IndexError`
(the matrix itself is never modified — the embedding is functional); a
successful view shares the buffer with `nc = stop - start` and data pointer
advanced by `start * stride`, and never owns, hence never releases, the
parent's data. -/
theorem scrappy_view_contract (m : ScrappieMatrix) (s : PySlice) :
    ((∃ v, scrappyGetItem m s = .ok v) ↔
       ((s.step = none ∨ s.step = some 1) ∧ s.start.getD 0 ≤ s.stop.getD m.nc ∧
         s.start.getD 0 ≤ m.nc ∧ s.stop.getD m.nc ≤ m.nc)) ∧
    (¬(s.step = none ∨ s.step = some 1) → scrappyGetItem m s = .error .valueError) ∧
    ((s.step = none ∨ s.step = some 1) → s.start.getD 0 > s.stop.getD m.nc →
       scrappyGetItem m s = .error .indexError) ∧
    ((s.step = none ∨ s.step = some 1) → s.start.getD 0 ≤ s.stop.getD m.nc →
       s.stop.getD m.nc > m.nc → scrappyGetItem m s = .error .indexError) ∧
    (∀ v, scrappyGetItem m s = .ok v →
       v.nc = s.stop.getD m.nc - s.start.getD 0 ∧
       v.dataOff = m.dataOff + s.start.getD 0 * m.stride ∧
       v.nr = m.nr ∧ v.nrq = m.nrq ∧ v.stride = m.stride ∧ v.ownsData = false) := by
  simp only [scrappyGetItem]
  split_ifs with h1 h2 h3
  · push_neg at h1
    refine ⟨?_, fun _ => rfl, ?_, ?_, ?_⟩
    · constructor
      · rintro ⟨v, hv⟩
        exact absurd hv (by simp)
      · rintro ⟨hstep, -, -, -⟩
        rcases hstep with h | h <;> simp [h] at h1
    · intro hstep
      rcases hstep with h | h <;> simp [h] at h1
    · intro hstep
      rcases hstep with h | h <;> simp [h] at h1
    · intro v hv
      exact absurd hv (by simp)
  · refine ⟨?_, fun hc => absurd ⟨fun h => hc (Or.inl h), fun h => hc (Or.inr h)⟩ h1, fun _ _ => rfl, ?_, ?_⟩
    · constructor
      · rintro ⟨v, hv⟩
        exact absurd hv (by simp)
      · rintro ⟨-, hle, -, -⟩
        omega
    · intro _ hle _
      omega
    · intro v hv
      exact absurd hv (by simp)
  · refine ⟨?_, fun hc => absurd ⟨fun h => hc (Or.inl h), fun h => hc (Or.inr h)⟩ h1, fun _ hgt => absurd h2 (by omega), fun _ _ _ => rfl, ?_⟩
    · constructor
      · rintro ⟨v, hv⟩
        exact absurd hv (by simp)
      · rintro ⟨-, -, hs, ht⟩
        omega
    · intro v hv
      exact absurd hv (by simp)
  · have hstep : s.step = none ∨ s.step = some 1 := by
      by_contra hc
      push_neg at hc
      exact h1 ⟨hc.1, hc.2⟩
    refine ⟨?_, fun hc => absurd hstep hc, fun _ hgt => absurd hgt (by omega),
      fun _ _ hgt => absurd hgt (by omega), ?_⟩
    · constructor
      · intro _
        exact ⟨hstep, by omega, by omega, by omega⟩
      · intro _
        exact ⟨_, rfl⟩
    · intro v hv
      have hv' : (⟨m.nr, m.nrq, s.stop.getD m.nc - s.start.getD 0, m.stride,
          m.dataOff + s.start.getD 0 * m.stride, false⟩ : ScrappieMatrix) = v := by
        exact (Except.ok.injEq _ _).mp hv
      rw [← hv']
      exact ⟨rfl, rfl, rfl, rfl, rfl, rfl⟩

/-- Concrete 10-block parent matrix for the C10 witness (nr = 25 states,
nrq = 7 padded quads, stride = 28). -/
def mat0 : ScrappieMatrix := ⟨25, 7, 10, 28, 0, true⟩

theorem scrappy_view_contract_witness :
    (∃ v, scrappyGetItem mat0 ⟨some 2, some 5, none⟩ = Except.ok v) ∧
    scrappyGetItem mat0 ⟨none, none, some 2⟩ = Except.error SliceError.valueError := by
  constructor
  · exact (scrappy_view_contract mat0 ⟨some 2, some 5, none⟩).1.mpr
      ⟨Or.inl rfl, by decide, by decide, by decide⟩
  · exact (scrappy_view_contract mat0 ⟨none, none, some 2⟩).2.1 (by decide)
/-! ## PosteriorSequenceAligner: `map_post_to_sequence` (source lines 585-671)

The DP routines (`lib.map_to_sequence_*`), the band validator
(`lib.are_bounds_sane`) and the sequence encoder
(`lib.encode_bases_to_integers`) are C code absent from this repository
snapshot; they are modelled from the spec.  The embedding captures the
Python control flow exactly: which error is raised, which DP routine is
invoked, and whether a path buffer is allocated and returned.  Python float
arithmetic in the scalar-band derivation is modelled by exact rationals and
the `np.uintp` cast by the integer floor (the derived values are proved
non-negative). -/

/-- The scalar-band derivation of `map_post_to_sequence` (source lines
640-648): `gradient = seq_len / nblock`, `hband = 2 * b * gradient / 2`,
`lower[x] = max(0, x*gradient - hband)`, `upper[x] = min(seq_len,
x*gradient + hband)`, truncated to integers by the `np.uintp` conversion. -/
def diagonalBands (seqLen : Int) (nblock b : Nat) : List Int × List Int :=
  let gradient : ℚ := (seqLen : ℚ) / (nblock : ℚ)
  let hband : ℚ := 2 * (b : ℚ) * gradient / 2
  ((List.range nblock).map (fun (x : Nat) => ⌊max 0 ((x : ℚ) * gradient - hband)⌋),
   (List.range nblock).map (fun (x : Nat) => ⌊min ((seqLen : Int) : ℚ) ((x : ℚ) * gradient + hband)⌋))

theorem getD_range_map (g : Nat → Int) (n i : Nat) (hi : i < n) :
    (((List.range n).map g).getD i 0) = g i := by
  rw [List.getD_eq_getElem?_getD]
  simp [List.getElem?_map, List.getElem?_range hi]

/-- C6: for every block count ≥ 1, non-negative scalar band `b`, and
non-negative encoded sequence length, the diagonal band derived by
`map_post_to_sequence` satisfies the AlignmentBand invariant: both bound
sequences are non-decreasing over block indices, and
`0 ≤ lower[i] ≤ upper[i] ≤ seqLen` for every block `i` (so the `np.uintp`
cast is value-preserving). -/
theorem diagonal_band_invariant (seqLen : Int) (nblock b : Nat)
    (hn : 1 ≤ nblock) (hs : 0 ≤ seqLen) :
    (∀ i j, i ≤ j → j < nblock →
       (diagonalBands seqLen nblock b).1.getD i 0 ≤ (diagonalBands seqLen nblock b).1.getD j 0 ∧
       (diagonalBands seqLen nblock b).2.getD i 0 ≤ (diagonalBands seqLen nblock b).2.getD j 0) ∧
    (∀ i, i < nblock →
       0 ≤ (diagonalBands seqLen nblock b).1.getD i 0 ∧
       (diagonalBands seqLen nblock b).1.getD i 0 ≤ (diagonalBands seqLen nblock b).2.getD i 0 ∧
       (diagonalBands seqLen nblock b).2.getD i 0 ≤ seqLen) := by
  have hn0 : (nblock : ℚ) ≠ 0 := Nat.cast_ne_zero.mpr (by omega)
  set g : ℚ := (seqLen : ℚ) / (nblock : ℚ) with hgdef
  set hb : ℚ := 2 * (b : ℚ) * g / 2 with hbdef
  have hsq : (0 : ℚ) ≤ (seqLen : ℚ) := by exact_mod_cast hs
  have hg : 0 ≤ g := div_nonneg hsq (by positivity)
  have hh : 0 ≤ hb := by
    rw [hbdef]
    positivity
  have hcancel : (nblock : ℚ) * g = (seqLen : ℚ) := by
    rw [hgdef]
    field_simp
  have hxg : ∀ x : Nat, x < nblock → (x : ℚ) * g ≤ (seqLen : ℚ) := by
    intro x hx
    calc (x : ℚ) * g ≤ (nblock : ℚ) * g := by
          apply mul_le_mul_of_nonneg_right _ hg
          exact_mod_cast Nat.le_of_lt hx
      _ = (seqLen : ℚ) := hcancel
  have hlow : ∀ i, i < nblock →
      (diagonalBands seqLen nblock b).1.getD i 0 = ⌊max 0 ((i : ℚ) * g - hb)⌋ := by
    intro i hi
    simp only [diagonalBands]
    exact getD_range_map _ _ _ hi
  have hhigh : ∀ i, i < nblock →
      (diagonalBands seqLen nblock b).2.getD i 0 = ⌊min ((seqLen : Int) : ℚ) ((i : ℚ) * g + hb)⌋ := by
    intro i hi
    simp only [diagonalBands]
    exact getD_range_map _ _ _ hi
  constructor
  · intro i j hij hj
    have hi : i < nblock := lt_of_le_of_lt (by omega : i ≤ j) hj
    rw [hlow i hi, hlow j hj, hhigh i hi, hhigh j hj]
    have hmul : (i : ℚ) * g ≤ (j : ℚ) * g := by
      apply mul_le_mul_of_nonneg_right _ hg
      exact_mod_cast hij
    constructor
    · exact Int.floor_le_floor (max_le_max le_rfl (by linarith))
    · exact Int.floor_le_floor (min_le_min le_rfl (by linarith))
  · intro i hi
    rw [hlow i hi, hhigh i hi]
    have hxi := hxg i hi
    have hx0 : (0 : ℚ) ≤ (i : ℚ) * g := mul_nonneg (by positivity) hg
    refine ⟨?_, ?_, ?_⟩
    · exact Int.le_floor.mpr (by simp)
    · apply Int.floor_le_floor
      apply le_min
      · apply max_le
        · exact_mod_cast hsq
        · linarith
      · apply max_le
        · linarith
        · linarith
    · calc ⌊min ((seqLen : Int) : ℚ) ((i : ℚ) * g + hb)⌋ ≤ ⌊((seqLen : Int) : ℚ)⌋ :=
            Int.floor_le_floor (min_le_left _ _)
      _ = seqLen := Int.floor_intCast seqLen

/-- Modelled from the spec: `lib.encode_bases_to_integers` succeeds iff every
symbol of the sequence is in {A,C,G,T}; otherwise the call fails
(`EncodingFailure`, §4.5/§7). -/
def encodeOK (sequence : List Char) : Bool :=
  sequence.all (fun c => c == 'A' || c == 'C' || c == 'G' || c == 'T')

/-- Modelled from the spec: `lib.are_bounds_sane` validates
`lowerBound[i] ≤ upperBound[i] ≤ sequenceLength` and monotone non-decreasing
bounds (§4.7) over exactly `nblock` entries per array — the model therefore
also requires both arrays to have length `nblock` (shorter arrays would be an
out-of-bounds read in C). -/
def areBoundsSane (low high : List Int) (nblock : Nat) (seqLen : Int) : Bool :=
  (low.length == nblock) && (high.length == nblock) &&
  ((List.range nblock).all (fun i =>
    decide (low.getD i 0 ≤ high.getD i 0) && decide (high.getD i 0 ≤ seqLen))) &&
  ((List.range nblock).all (fun i =>
    (i + 1 == nblock) || (decide (low.getD i 0 ≤ low.getD (i + 1) 0) &&
      decide (high.getD i 0 ≤ high.getD (i + 1) 0))))

/-- The `bands` argument of `map_post_to_sequence`: `None`, a single integer,
or an explicit (lower, upper) pair of `np.uintp` arrays. -/
inductive Bands
  | noBands
  | scalar (b : Nat)
  | pair (low high : List Nat)
  deriving DecidableEq

/-- The failures of `map_post_to_sequence`, in the spec's taxonomy:
`ValueError` for `path` without `viterbi`; `KeyError` from
`guess_state_properties` (`UnrecognizedStateCount`); encoding failure
(`EncodingFailure`); rejected banding (`InvalidBanding`, the `ValueError`
raised when `lib.are_bounds_sane` fails). -/
inductive MapError
  | pathNeedsViterbi
  | unrecognizedStateCount
  | encodingFailure
  | invalidBanding
  deriving DecidableEq

/-- Which C dynamic-programming routine a successful call hands the work to.
An `Except.error` result carries no `DPCall`: no alignment routine runs. -/
inductive DPCall
  | viterbiFull
  | forwardFull
  | viterbiBanded
  | forwardBanded
  deriving DecidableEq

/-- `map_post_to_sequence(post, sequence, ..., viterbi, path, bands)` control
flow (source lines 585-671): reject `path and not viterbi` first; derive
(alphabet, kmer) from the state count; compute
`seq_len = len(sequence) - kmer_len + 1`; encode the sequence; allocate the
path buffer only when `viterbi and path`; dispatch on `bands`, validating
scalar-derived and explicit bands with `are_bounds_sane` before invoking any
banded DP routine.  The result records the DP routine invoked and the
returned path buffer (`None` unless `viterbi and path`). -/
def map_post_to_sequence (nblock nstate : Nat) (sequence : List Char)
    (viterbi path : Bool) (bands : Bands) : Except MapError (DPCall × Option Unit) :=
  if path && !viterbi then .error .pathNeedsViterbi
  else
    match guess_state_properties nstate with
    | none => .error .unrecognizedStateCount
    | some (_, kmer_len) =>
      let seq_len : Int := (sequence.length : Int) - (kmer_len : Int) + 1
      if !encodeOK sequence then .error .encodingFailure
      else
        let path_data : Option Unit := if viterbi && path then some () else none
        match bands with
        | .noBands => .ok (if viterbi then .viterbiFull else .forwardFull, path_data)
        | .scalar b =>
          let bd := diagonalBands seq_len nblock b
          if areBoundsSane bd.1 bd.2 nblock seq_len then
            .ok (if viterbi then .viterbiBanded else .forwardBanded, path_data)
          else .error .invalidBanding
        | .pair low high =>
          if areBoundsSane (low.map Int.ofNat) (high.map Int.ofNat) nblock seq_len then
            .ok (if viterbi then .viterbiBanded else .forwardBanded, path_data)
          else .error .invalidBanding

theorem areBoundsSane_spec (low high : List Int) (nblock : Nat) (seqLen : Int) :
    areBoundsSane low high nblock seqLen = true ↔
      (low.length = nblock ∧ high.length = nblock ∧
       (∀ i, i < nblock → low.getD i 0 ≤ high.getD i 0 ∧ high.getD i 0 ≤ seqLen) ∧
       (∀ i, i + 1 < nblock →
         low.getD i 0 ≤ low.getD (i + 1) 0 ∧ high.getD i 0 ≤ high.getD (i + 1) 0)) := by
  simp only [areBoundsSane, Bool.and_eq_true, List.all_eq_true, List.mem_range, beq_iff_eq,
    Bool.or_eq_true, decide_eq_true_eq]
  constructor
  · rintro ⟨⟨⟨h1, h2⟩, h3⟩, h4⟩
    refine ⟨h1, h2, h3, ?_⟩
    intro i hi
    rcases h4 i (by omega) with h | h
    · omega
    · exact h
  · rintro ⟨h1, h2, h3, h4⟩
    refine ⟨⟨⟨h1, h2⟩, h3⟩, ?_⟩
    intro i hi
    by_cases he : i + 1 = nblock
    · exact Or.inl he
    · exact Or.inr (h4 i (by omega))

theorem getD_map_intOfNat (l : List Nat) (i : Nat) :
    (l.map Int.ofNat).getD i 0 = (l.getD i 0 : Int) := by
  induction l generalizing i with
  | nil => simp
  | cons a t ih =>
    cases i with
    | zero => simp
    | succ j => simpa using ih j

/-- C4: an explicit (lower, upper) band pair that violates the banding
invariant — `lower[i] > upper[i]` for some block, or `upper[i] > seqLen`, or
either sequence decreasing somewhere — makes `map_post_to_sequence` fail with
`InvalidBanding`; the error result carries no `DPCall`, so no banded
alignment routine is invoked. -/
theorem map_rejects_malformed_bands (nblock nstate : Nat) (sequence : List Char)
    (viterbi path : Bool) (low high : List Nat) (a k : Nat)
    (hpv : ¬(path = true ∧ viterbi = false))
    (hns : guess_state_properties nstate = some (a, k))
    (henc : encodeOK sequence = true)
    (_hlen1 : low.length = nblock) (_hlen2 : high.length = nblock)
    (hbad : (∃ i, i < nblock ∧ (high.getD i 0 < low.getD i 0 ∨
               (sequence.length : Int) - (k : Int) + 1 < (high.getD i 0 : Int))) ∨
            (∃ i, i + 1 < nblock ∧
              (low.getD (i + 1) 0 < low.getD i 0 ∨ high.getD (i + 1) 0 < high.getD i 0))) :
    map_post_to_sequence nblock nstate sequence viterbi path (.pair low high)
      = .error .invalidBanding := by
  have hB : (path && !viterbi) = false := by
    cases path <;> cases viterbi <;> simp_all
  have hsane : areBoundsSane (low.map Int.ofNat) (high.map Int.ofNat) nblock
      ((sequence.length : Int) - (k : Int) + 1) = false := by
    rw [Bool.eq_false_iff]
    intro htrue
    rw [areBoundsSane_spec] at htrue
    obtain ⟨-, -, h3, h4⟩ := htrue
    rcases hbad with ⟨i, hi, hcase⟩ | ⟨i, hi, hcase⟩
    · have hq := h3 i hi
      rw [getD_map_intOfNat, getD_map_intOfNat] at hq
      rcases hcase with hc | hc <;> omega
    · have hq := h4 i hi
      rw [getD_map_intOfNat, getD_map_intOfNat, getD_map_intOfNat, getD_map_intOfNat] at hq
      rcases hcase with hc | hc
      · have : (low.getD (i + 1) 0 : Int) < (low.getD i 0 : Int) := by exact_mod_cast hc
        omega
      · have : (high.getD (i + 1) 0 : Int) < (high.getD i 0 : Int) := by exact_mod_cast hc
        omega
  simp only [map_post_to_sequence, hB, Bool.false_eq_true, if_false, hns, henc,
    Bool.not_true, hsane]

/-- C8: requesting the path without Viterbi fails immediately (first
statement of the function, before any encoding or alignment work); and every
successful call with `path` or `viterbi` unset returns `None` for the path
while still returning a score (the `.ok` result). -/
theorem map_path_flag_contract (nblock nstate : Nat) (sequence : List Char)
    (viterbi path : Bool) (bands : Bands) :
    (path = true → viterbi = false →
      map_post_to_sequence nblock nstate sequence viterbi path bands
        = .error .pathNeedsViterbi) ∧
    (∀ dp pd, map_post_to_sequence nblock nstate sequence viterbi path bands = .ok (dp, pd) →
      (path = false ∨ viterbi = false) → pd = none) := by
  constructor
  · intro hp hv
    subst hp
    subst hv
    rfl
  · intro dp pd hok hor
    have hpd : (if viterbi && path then (some () : Option Unit) else none) = none := by
      rcases hor with h | h <;> subst h <;> simp
    simp only [map_post_to_sequence, hpd] at hok
    by_cases h1 : (path && !viterbi) = true
    · rw [if_pos h1] at hok
      exact absurd hok (by simp)
    · rw [if_neg h1] at hok
      rcases hguess : guess_state_properties nstate with _ | ⟨a, k⟩ <;> rw [hguess] at hok <;>
        dsimp only at hok
      · exact absurd hok (by simp)
      · by_cases h2 : (!encodeOK sequence) = true
        · rw [if_pos h2] at hok
          exact absurd hok (by simp)
        · rw [if_neg h2] at hok
          rcases bands with _ | b | ⟨low, high⟩ <;> simp only at hok
          · simp only [Except.ok.injEq, Prod.mk.injEq] at hok
            exact hok.2.symm
          · by_cases h3 : areBoundsSane (diagonalBands ((sequence.length : Int) - (k : Int) + 1) nblock b).1
                (diagonalBands ((sequence.length : Int) - (k : Int) + 1) nblock b).2 nblock
                ((sequence.length : Int) - (k : Int) + 1) = true
            · rw [if_pos h3] at hok
              simp only [Except.ok.injEq, Prod.mk.injEq] at hok
              exact hok.2.symm
            · rw [if_neg h3] at hok
              exact absurd hok (by simp)
          · by_cases h3 : areBoundsSane (low.map Int.ofNat) (high.map Int.ofNat) nblock
                ((sequence.length : Int) - (k : Int) + 1) = true
            · rw [if_pos h3] at hok
              simp only [Except.ok.injEq, Prod.mk.injEq] at hok
              exact hok.2.symm
            · rw [if_neg h3] at hok
              exact absurd hok (by simp)

/-- Concrete valid 6-base sequence used by the aligner witnesses. -/
def cseq : List Char := ['A', 'C', 'G', 'T', 'A', 'C']

theorem diagonal_band_invariant_witness :
    0 ≤ (diagonalBands 4 2 1).1.getD 0 0 ∧
    (diagonalBands 4 2 1).1.getD 0 0 ≤ (diagonalBands 4 2 1).2.getD 0 0 ∧
    (diagonalBands 4 2 1).2.getD 0 0 ≤ 4 :=
  (diagonal_band_invariant 4 2 1 (by decide) (by decide)).2 0 (by decide)

theorem map_rejects_malformed_bands_witness :
    map_post_to_sequence 2 1025 cseq true false (Bands.pair [3, 3] [1, 1])
      = Except.error MapError.invalidBanding :=
  map_rejects_malformed_bands 2 1025 cseq true false [3, 3] [1, 1] 4 5
    (by simp) (by decide) (by decide) (by decide) (by decide)
    (Or.inl ⟨0, by omega, Or.inl (by decide)⟩)

theorem map_path_flag_contract_witness :
    map_post_to_sequence 2 1025 cseq false true Bands.noBands
        = Except.error MapError.pathNeedsViterbi ∧
    map_post_to_sequence 2 1025 cseq true false Bands.noBands
        = Except.ok (DPCall.viterbiFull, none) := by
  constructor
  · exact (map_path_flag_contract 2 1025 cseq false true Bands.noBands).1 rfl rfl
  · rfl

/-! ## Batch entry point: `_basecall` (source lines 693-723)

The sequential branch iterates the reads in order, calls
`worker = basecall_raw` on each and prints one record per read; there is no
try/except around the worker call, so an exception raised while decoding or
aligning one read propagates and terminates the loop.  The worker is
modelled as a function returning `Except`; the batch result is the list of
printed records together with the terminating error, if any.  (The threaded
branch consumes `executor.map` results in submission order and re-raises a
failed read's exception when its result is reached, so later results are
likewise never printed.) -/

def runBatch {α β ε : Type} (worker : α → Except ε β) : List α → List β × Option ε
  | [] => ([], none)
  | r :: rs =>
    match worker r with
    | .error e => ([], some e)
    | .ok b => ((b :: (runBatch worker rs).1), (runBatch worker rs).2)

/-- A worker with a per-read decode failure on read 0 (`basecall_raw` can
raise, for example, `RuntimeError` from `calc_post` when the scorer returns
NULL, or `KeyError` for an unrecognised model). -/
def failingWorker : Nat → Except String Nat :=
  fun r => if r = 0 then .error "decode failure" else .ok r

/-- C9 counterexample: with three queued reads of which the second fails, the
batch prints only the first result and terminates with the error — the third
read is never processed, falsifying "every sibling read already in flight or
queued is still processed and its result printed". -/
theorem batch_not_fault_tolerant_counterexample :
    ¬ ((runBatch failingWorker [1, 0, 2]).1.length = 3 ∧
       (runBatch failingWorker [1, 0, 2]).2 = none) := by
  decide

/-- C9 amended: `_basecall` catches nothing at the read boundary — if every
read before `r` succeeds and `r` fails, the batch terminates with `r`'s
error, having printed exactly the results of the reads before `r`; the reads
after `r` are never processed. -/
theorem batch_stops_at_first_failing_read {α β ε : Type} (worker : α → Except ε β)
    (pre : List α) (r : α) (post : List α) (e : ε)
    (hpre : ∀ x ∈ pre, ∃ b, worker x = .ok b) (hr : worker r = .error e) :
    (runBatch worker (pre ++ r :: post)).2 = some e ∧
    (runBatch worker (pre ++ r :: post)).1.length = pre.length := by
  induction pre with
  | nil =>
    simp [runBatch, hr]
  | cons a t ih =>
    obtain ⟨b, hb⟩ := hpre a (List.mem_cons_self a t)
    have iht := ih (fun x hx => hpre x (List.mem_cons_of_mem a hx))
    simp only [List.cons_append, runBatch, hb]
    exact ⟨iht.1, by simp [iht.2]⟩

theorem batch_stops_at_first_failing_read_witness :
    (runBatch failingWorker [1, 0, 2]).2 = some "decode failure" ∧
    (runBatch failingWorker [1, 0, 2]).1.length = [1].length :=
  batch_stops_at_first_failing_read failingWorker [1] 0 [2] "decode failure"
    (fun x hx => by
      simp only [List.mem_singleton] at hx
      exact ⟨1, by rw [hx]; rfl⟩)
    rfl
